import Mathlib

/-!
Verification of the typed-secure-storage repository: a schema-typed, encrypted
key-value store over the browser localStorage medium (src/lib/storage.ts), with
AES-GCM payload encryption (AESGCMEncryptionService).

The development shallowly embeds the TypeScript source:
* pure JS platform text primitives (`btoa`, `atob`, the JSON envelope text
  produced by `JSON.stringify({iv, data})` and consumed by `JSON.parse`) are
  implemented concretely over `List Char`;
* the Web Crypto AES-GCM primitive, TextEncoder/TextDecoder, and the JSON
  (de)serialization of schema values are external platform collaborators and
  are modelled as structures carrying their interface contracts;
* `localStorage` is an association list of string keys to string values;
* randomness (`crypto.getRandomValues`, `crypto.randomUUID`) is modelled as
  indexed streams carried in the store state, one index per draw.
-/

/-! ### Bytes and base64 (JS `btoa` applied to `String.fromCharCode(...bytes)`,
and `atob` followed by `charCodeAt`) -/

abbrev Bytes := List Nat

def b64Alphabet : List Char :=
  "ABCDEFGHIJKLMNOPQRSTUVWXYZabcdefghijklmnopqrstuvwxyz0123456789+/".toList

def b64Char (n : Nat) : Char := b64Alphabet.getD n '?'

def b64Index (c : Char) : Option Nat := b64Alphabet.findIdx? (· = c)

/-- Base64-encode a byte list, 3 bytes to 4 output characters, `=`-padded. -/
def btoaChunks : Bytes → List Char
  | [] => []
  | [a] => [b64Char (a / 4), b64Char (a % 4 * 16), '=', '=']
  | [a, b] => [b64Char (a / 4), b64Char (a % 4 * 16 + b / 16), b64Char (b % 16 * 4), '=']
  | a :: b :: c :: rest =>
    b64Char (a / 4) :: b64Char (a % 4 * 16 + b / 16) :: b64Char (b % 16 * 4 + c / 64) ::
      b64Char (c % 64) :: btoaChunks rest

/-- Base64-decode; `none` on text that is not well-formed base64. -/
def atobChunks : List Char → Option Bytes
  | [] => some []
  | c1 :: c2 :: c3 :: c4 :: rest =>
    match b64Index c1, b64Index c2 with
    | some i1, some i2 =>
      if c3 = '=' then
        if c4 = '=' ∧ rest = [] then some [i1 * 4 + i2 / 16] else none
      else
        match b64Index c3 with
        | some i3 =>
          if c4 = '=' then
            if rest = [] then some [i1 * 4 + i2 / 16, i2 % 16 * 16 + i3 / 4] else none
          else
            match b64Index c4, atobChunks rest with
            | some i4, some bs =>
              some ((i1 * 4 + i2 / 16) :: (i2 % 16 * 16 + i3 / 4) :: (i3 % 4 * 64 + i4) :: bs)
            | _, _ => none
        | none => none
    | _, _ => none
  | _ => none

def btoa (bs : Bytes) : String := String.mk (btoaChunks bs)

def atob (s : String) : Option Bytes := atobChunks s.toList

/-! ### Decimal rendering of naturals (the number tokens `JSON.stringify`
emits for the `iv` byte array) and a matching decimal parser -/

def digitChar (d : Nat) : Char :=
  match d with
  | 0 => '0' | 1 => '1' | 2 => '2' | 3 => '3' | 4 => '4'
  | 5 => '5' | 6 => '6' | 7 => '7' | 8 => '8' | _ => '9'

def isDigitChar (c : Char) : Bool := 48 ≤ c.toNat && c.toNat ≤ 57

/-- Little-endian decimal digit values of `n`, driven by explicit fuel. -/
def toDigitsRevFuel : Nat → Nat → List Nat
  | 0, _ => []
  | fuel + 1, n => if n = 0 then [] else n % 10 :: toDigitsRevFuel fuel (n / 10)

def natDecChars (n : Nat) : List Char :=
  if n = 0 then ['0'] else ((toDigitsRevFuel n n).map digitChar).reverse

/-- Value of a little-endian digit list. -/
def ofDigitsRev : List Nat → Nat
  | [] => 0
  | d :: ds => d + 10 * ofDigitsRev ds

def charVal (c : Char) : Nat := c.toNat - 48

/-- Value of a big-endian digit-character list. -/
def decValue (ds : List Char) : Nat := ds.foldl (fun a c => 10 * a + charVal c) 0

/-! ### The envelope text: `JSON.stringify({ iv: Array.from(iv), data: base64Data })`
produces exactly the text `{"iv":[n1,...,nk],"data":"<base64>"}`; `JSON.parse`
in `decrypt` destructures it back.  The parser below accepts exactly the texts
the serializer emits (and rejects everything else). -/

def parseNat (cs : List Char) : Option (Nat × List Char) :=
  let ds := cs.takeWhile isDigitChar
  if ds.isEmpty then none else some (decValue ds, cs.drop ds.length)

/-- Render a number list as comma-separated decimal tokens. -/
def joinNums : List Nat → List Char
  | [] => []
  | n :: ns => natDecChars n ++ (if ns.isEmpty then [] else ',' :: joinNums ns)

/-- Parse a non-empty comma-separated number list up to and including a
closing `]`; fuel bounds the recursion. -/
def parseNatsAux : Nat → List Char → Option (List Nat × List Char)
  | 0, _ => none
  | fuel + 1, cs =>
    match parseNat cs with
    | none => none
    | some (n, rest) =>
      match rest with
      | ',' :: rest2 =>
        match parseNatsAux fuel rest2 with
        | none => none
        | some (ns, r) => some (n :: ns, r)
      | ']' :: rest2 => some ([n], rest2)
      | _ => none

/-- Consume an exact leading text, returning the remainder. -/
def dropExact : List Char → List Char → Option (List Char)
  | [], cs => some cs
  | _ :: _, [] => none
  | p :: ps, c :: cs => if c = p then dropExact ps cs else none

def envHeadText : List Char := ("\x7b\"iv\":[").toList

def envMidText : List Char := (",\"data\":\"").toList

def envTailText : List Char := ['"', '\x7d']

/-- The on-storage envelope text for nonce `iv` and base64 payload `dataB64`:
exactly what `JSON.stringify({ iv, data })` emits. -/
def stringifyEnvelope (iv : Bytes) (dataB64 : String) : String :=
  String.mk (envHeadText ++ joinNums iv ++ (']' :: envMidText) ++ dataB64.toList ++ envTailText)

/-- `JSON.parse` + destructuring of the envelope: recover `(iv, data)`. -/
def parseEnvelope (s : String) : Option (Bytes × String) :=
  match dropExact envHeadText s.toList with
  | none => none
  | some r1 =>
    match (if r1.head? = some ']' then some (([] : Bytes), r1.tail)
           else parseNatsAux (r1.length + 1) r1) with
    | none => none
    | some (ns, r2) =>
      match dropExact envMidText r2 with
      | none => none
      | some r3 =>
        let ds := r3.takeWhile (· ≠ '"')
        match r3.drop ds.length with
        | ['"', '\x7d'] => some (ns, String.mk ds)
        | _ => none

/-! ### External platform collaborators.

`WebCrypto` models `crypto.subtle.encrypt`/`crypto.subtle.decrypt` for AES-GCM
together with `TextEncoder`/`TextDecoder`, carrying the platform guarantees the
code relies on: authenticated decryption inverts encryption under the same
nonce, ciphertexts are byte (< 256) sequences, and UTF-8 text decoding inverts
encoding.  `JsonCodec` models `JSON.stringify`/`JSON.parse` on the caller's
JSON-serializable record type. -/

structure WebCrypto where
  aesGcmEncrypt : Bytes → Bytes → Bytes
  aesGcmDecrypt : Bytes → Bytes → Option Bytes
  textEncode : String → Bytes
  textDecode : Bytes → String
  decrypt_encrypt : ∀ iv data, (∀ b ∈ data, b < 256) →
    aesGcmDecrypt iv (aesGcmEncrypt iv data) = some data
  encrypt_bytes : ∀ iv data b, b ∈ aesGcmEncrypt iv data → b < 256
  textEncode_bytes : ∀ s b, b ∈ textEncode s → b < 256
  textDecode_encode : ∀ s, textDecode (textEncode s) = s

structure JsonCodec (V : Type) where
  stringify : V → String
  parse : String → Option V
  parse_stringify : ∀ v, parse (stringify v) = some v

/-- Mutable context of a store run: the localStorage medium plus the random
streams backing `crypto.getRandomValues` (byte stream per draw index) and
`crypto.randomUUID` (string per draw index). -/
structure StoreState where
  medium : List (String × String)
  randBytes : Nat → Nat → Nat
  randIdx : Nat
  uuids : Nat → String
  uuidIdx : Nat

/-- The platform guarantee that `crypto.getRandomValues` fills `Uint8Array`
cells with values below 256. -/
def WFRand (st : StoreState) : Prop := ∀ i j, st.randBytes i j < 256

/-- `crypto.getRandomValues(new Uint8Array(12))` at the current draw index. -/
def drawIv (st : StoreState) : Bytes := (List.range 12).map (st.randBytes st.randIdx)

/-! ### localStorage (the external string-keyed medium) -/

def lsGetItem (m : List (String × String)) (k : String) : Option String :=
  (m.find? (fun p => p.1 == k)).map (fun p => p.2)

def lsSetItem (m : List (String × String)) (k v : String) : List (String × String) :=
  if m.any (fun p => p.1 == k) then
    m.map (fun p => if p.1 == k then (k, v) else p)
  else m ++ [(k, v)]

def lsRemoveItem (m : List (String × String)) (k : String) : List (String × String) :=
  m.filter (fun p => !(p.1 == k))

def lsKeys (m : List (String × String)) : List String := m.map (fun p => p.1)

/-! ### AESGCMEncryptionService (src/services/encryption-service.ts) -/

namespace AESGCMEncryptionService

/-- `encrypt(data)`: draw a fresh 12-byte IV, AES-GCM-encrypt the UTF-8 bytes
of `data`, and return `JSON.stringify({ iv: Array.from(iv), data: btoa(...) })`.
Consumes one draw of the random byte stream. -/
def encrypt (P : WebCrypto) (st : StoreState) (data : String) : String × StoreState :=
  let iv := drawIv st
  let encryptedData := P.aesGcmEncrypt iv (P.textEncode data)
  (stringifyEnvelope iv (btoa encryptedData), { st with randIdx := st.randIdx + 1 })

/-- `decrypt(encrypted)`: `JSON.parse` the envelope, rebuild the IV as a
`Uint8Array` (values reduced mod 256), `atob` the payload, and perform
authenticated decryption; any failure surfaces as `none`. -/
def decrypt (P : WebCrypto) (encrypted : String) : Option String :=
  match parseEnvelope encrypted with
  | none => none
  | some (iv, data) =>
    match atob data with
    | none => none
    | some dataArray =>
      match P.aesGcmDecrypt (iv.map (· % 256)) dataArray with
      | none => none
      | some decryptedData => some (P.textDecode decryptedData)

end AESGCMEncryptionService

/-! ### EncryptedStorage (src/lib/storage.ts) -/

/-- The constructor's `prefix ?? "@edb"` defaulting. -/
def storePfx (p : Option String) : String := p.getD "@edb"

/-- The composite storage key: backtick-template
`` `${prefix}_${tableName}_${key}` ``. -/
def storageKey (pfx tableName key : String) : String :=
  pfx ++ "_" ++ tableName ++ "_" ++ key

/-- JS `String.prototype.startsWith`. -/
def jsStartsWith (s p : String) : Bool := p.toList.isPrefixOf s.toList

/-- JS `String.prototype.replace` with a plain-string pattern: replace the
first occurrence only. -/
def replaceFirstChars (pat rep : List Char) : List Char → List Char
  | [] => []
  | c :: cs =>
    if pat.isPrefixOf (c :: cs) then rep ++ (c :: cs).drop pat.length
    else c :: replaceFirstChars pat rep cs

def jsReplaceFirst (s pat rep : String) : String :=
  String.mk (replaceFirstChars pat.toList rep.toList s.toList)

/-- JS truthiness of the optional `key` argument in `key || crypto.randomUUID()`:
`undefined` and `""` are falsy. -/
def keyFalsy : Option String → Bool
  | none => true
  | some k => k == ""

inductive StorageErr where
  | decryptionError
  | valueParseError
deriving DecidableEq

namespace EncryptedStorage

/-- `exists(tableName, key)`: `!!localStorage.getItem(composite)` — truthiness,
so a stored empty string counts as absent. -/
def «exists» (pfx tableName key : String) (m : List (String × String)) : Bool :=
  match lsGetItem m (storageKey pfx tableName key) with
  | none => false
  | some s => !(s == "")

/-- `set(tableName, value, key?)`.  `finalKey = key || crypto.randomUUID()`;
if the composite key exists and `key == undefined`, retry with a fresh random
key; otherwise encrypt `JSON.stringify(value)` and store the envelope at the
composite key, returning the value together with its assigned key.  The
unbounded JS recursion is modelled with fuel (`none` = fuel exhausted). -/
def set (P : WebCrypto) {V : Type} (C : JsonCodec V) (pfx : String) :
    Nat → String → V → Option String → StoreState → Option ((V × String) × StoreState)
  | 0, _, _, _, _ => none
  | fuel + 1, tableName, value, key, st =>
    let pair := if keyFalsy key then
        (st.uuids st.uuidIdx, { st with uuidIdx := st.uuidIdx + 1 })
      else (key.getD "", st)
    if «exists» pfx tableName pair.1 pair.2.medium && key.isNone then
      set P C pfx fuel tableName value none pair.2
    else
      let enc := AESGCMEncryptionService.encrypt P pair.2 (C.stringify value)
      some ((value, pair.1),
        { enc.2 with
          medium := lsSetItem enc.2.medium (storageKey pfx tableName pair.1) enc.1 })

/-- `get(tableName, key)`: absent entry (or stored falsy `""`) gives `null`;
otherwise decrypt (propagating failure) and `JSON.parse` the plaintext. -/
def get (P : WebCrypto) {V : Type} (C : JsonCodec V) (pfx tableName key : String)
    (m : List (String × String)) : Except StorageErr (Option V) :=
  match lsGetItem m (storageKey pfx tableName key) with
  | none => Except.ok none
  | some item =>
    if item = "" then Except.ok none
    else
      match AESGCMEncryptionService.decrypt P item with
      | none => Except.error StorageErr.decryptionError
      | some decryptedValue =>
        match C.parse decryptedValue with
        | none => Except.error StorageErr.valueParseError
        | some v => Except.ok (some v)

/-- The enumeration loop body of `getAll` over an explicit key list. -/
def getAllGo (P : WebCrypto) {V : Type} (C : JsonCodec V) (pfx tableName : String)
    (m : List (String × String)) : List String → Except StorageErr (List (V × String))
  | [] => Except.ok []
  | key :: keys =>
    match lsGetItem m key with
    | none => getAllGo P C pfx tableName m keys
    | some item =>
      if item = "" then getAllGo P C pfx tableName m keys
      else
        match AESGCMEncryptionService.decrypt P item with
        | none => Except.error StorageErr.decryptionError
        | some decryptedValue =>
          match C.parse decryptedValue with
          | none => Except.error StorageErr.valueParseError
          | some v =>
            match getAllGo P C pfx tableName m keys with
            | Except.error e => Except.error e
            | Except.ok rest =>
              Except.ok ((v, jsReplaceFirst key (pfx ++ "_" ++ tableName ++ "_") "") :: rest)

/-- `getAll(tableName)`: enumerate `Object.keys(localStorage)` filtered by the
`${prefix}_${tableName}_` prefix, decrypt each truthy entry, and pair each
record with the key recovered by stripping the prefix. -/
def getAll (P : WebCrypto) {V : Type} (C : JsonCodec V) (pfx tableName : String)
    (m : List (String × String)) : Except StorageErr (List (V × String)) :=
  getAllGo P C pfx tableName m
    ((lsKeys m).filter (fun key => jsStartsWith key (pfx ++ "_" ++ tableName ++ "_")))

/-- `filter(tableName, predicate)`: `getAll` then a client-side linear filter. -/
def filter (P : WebCrypto) {V : Type} (C : JsonCodec V) (pfx tableName : String)
    (predicate : V × String → Bool) (m : List (String × String)) :
    Except StorageErr (List (V × String)) :=
  match getAll P C pfx tableName m with
  | Except.error e => Except.error e
  | Except.ok allItems => Except.ok (allItems.filter predicate)

/-- `remove(tableName, key)`: delete the composite key from the medium. -/
def remove (pfx tableName key : String) (m : List (String × String)) :
    List (String × String) :=
  lsRemoveItem m (storageKey pfx tableName key)

/-- Sequential iteration of omitted-key `set` calls (one per value). -/
def setSeq (P : WebCrypto) {V : Type} (C : JsonCodec V) (pfx : String) (fuel : Nat)
    (tableName : String) : List V → StoreState → Option (List (V × String) × StoreState)
  | [], st => some ([], st)
  | v :: vs, st =>
    match set P C pfx fuel tableName v none st with
    | none => none
    | some (r, st1) =>
      match setSeq P C pfx fuel tableName vs st1 with
      | none => none
      | some (rs, st2) => some (r :: rs, st2)

end EncryptedStorage

/-! ### Unfolding lemmas for `set`, and the write specification -/

/-- The envelope text a `set` call started in state `st` stores for `value`. -/
def envOf (P : WebCrypto) {V : Type} (C : JsonCodec V) (st : StoreState) (value : V) :
    String :=
  stringifyEnvelope (drawIv st)
    (btoa (P.aesGcmEncrypt (drawIv st) (P.textEncode (C.stringify value))))

def bumpUuid (st : StoreState) : StoreState := { st with uuidIdx := st.uuidIdx + 1 }

/-! ### Concrete platform instances used to exercise the theorems -/

def charBytes3 (c : Char) : Bytes := [c.toNat / 65536, c.toNat / 256 % 256, c.toNat % 256]

def decodeBytes3 : Bytes → List Char
  | a :: b :: c :: rest => Char.ofNat (a * 65536 + b * 256 + c) :: decodeBytes3 rest
  | _ => []

/-- A lawful `WebCrypto` instance: transparent byte-level cipher and a
3-bytes-per-character text codec. -/
def cipherId : WebCrypto where
  aesGcmEncrypt := fun _ data => data.map (· % 256)
  aesGcmDecrypt := fun _ ct => some ct
  textEncode := fun s => s.toList.flatMap charBytes3
  textDecode := fun bs => String.mk (decodeBytes3 bs)
  decrypt_encrypt := by
    intro iv data h
    have hmap : ∀ l : Bytes, (∀ b ∈ l, b < 256) → l.map (· % 256) = l := by
      intro l
      induction l with
      | nil => intro _; rfl
      | cons b bs ih =>
        intro hl
        have hb := hl b (by simp)
        have hbs : ∀ x ∈ bs, x < 256 := fun x hx => hl x (by simp [hx])
        simp [ih hbs, Nat.mod_eq_of_lt hb]
    show some (data.map (· % 256)) = some data
    rw [hmap data h]
  encrypt_bytes := by
    intro iv data b hb
    simp only [List.mem_map] at hb
    obtain ⟨x, _, rfl⟩ := hb
    omega
  textEncode_bytes := by
    intro s b hb
    obtain ⟨c, _, hc⟩ := List.mem_flatMap.mp hb
    have hv : c.toNat < 1114112 := by
      rcases c.valid with h1 | ⟨_, h3⟩
      · exact Nat.lt_trans h1 (by norm_num)
      · exact h3
    simp only [charBytes3, List.mem_cons, List.not_mem_nil, or_false] at hc
    rcases hc with rfl | rfl | rfl <;> omega
  textDecode_encode := by
    intro s
    suffices hmain : ∀ l : List Char, decodeBytes3 (l.flatMap charBytes3) = l by
      exact congrArg String.mk (hmain s.toList)
    intro l
    induction l with
    | nil => rfl
    | cons c cs ih =>
      have harith : c.toNat / 65536 * 65536 + c.toNat / 256 % 256 * 256 + c.toNat % 256 =
          c.toNat := by omega
      have hstep : (c :: cs).flatMap charBytes3 =
          c.toNat / 65536 :: c.toNat / 256 % 256 :: c.toNat % 256 :: cs.flatMap charBytes3 :=
        rfl
      rw [hstep]
      simp only [decodeBytes3, ih, harith, Char.ofNat_toNat]

/-- A lawful `JsonCodec` on plain strings: identity serialization. -/
def codecId : JsonCodec String where
  stringify := id
  parse := some
  parse_stringify := fun _ => rfl

/-- A concrete store state for witnesses: empty medium, constant random bytes,
decimal-numbered UUIDs. -/
def stWit : StoreState where
  medium := []
  randBytes := fun _ _ => 65
  randIdx := 0
  uuids := fun n => String.mk ('u' :: natDecChars n)
  uuidIdx := 0

def dfltRes : (String × String) × StoreState := (("", ""), stWit)

def setResC1 : Option ((String × String) × StoreState) :=
  EncryptedStorage.set cipherId codecId "@edb" 1 "todos" "hello" none stWit

def setResC4a : Option ((String × String) × StoreState) :=
  EncryptedStorage.set cipherId codecId "@edb" 1 "todos" "v1" (some "k") stWit

def setResC4b : Option ((String × String) × StoreState) :=
  EncryptedStorage.set cipherId codecId "@edb" 1 "todos" "v2" (some "k")
    ((setResC4a.getD dfltRes).2)

def mWitBad : List (String × String) := [("@edb_todos_k1", "garbage")]

/-- A state whose successive random draws are visibly distinct. -/
def stWit2 : StoreState where
  medium := []
  randBytes := fun i _ => i
  randIdx := 0
  uuids := fun n => String.mk ('u' :: natDecChars n)
  uuidIdx := 0

def mWitEmpty : List (String × String) := [("@edb_todos_e", "")]

def mWitC6 : List (String × String) := [("@edb_todos_bad", "junk")]

def setResC2 : Option ((String × String) × StoreState) :=
  EncryptedStorage.set cipherId codecId "@edb" 1 "a" "hello" (some "b_c") stWit

def dfltSeq : List (String × String) × StoreState := ([], stWit)

def setSeqRes : Option (List (String × String) × StoreState) :=
  EncryptedStorage.setSeq cipherId codecId "@edb" 1 "todos" ["x", "y"] stWit

theorem b64Index_b64Char : ∀ n, n < 64 → b64Index (b64Char n) = some n := by decide

theorem b64Char_ne_eq : ∀ n, n < 64 → b64Char n ≠ '=' := by decide

theorem b64Char_ne_quote (n : Nat) : b64Char n ≠ '"' := by
  unfold b64Char
  rcases Nat.lt_or_ge n b64Alphabet.length with h | h
  · rw [List.getD_eq_getElem _ _ h]
    have hmem : b64Alphabet[n] ∈ b64Alphabet := List.getElem_mem h
    intro hq
    rw [hq] at hmem
    revert hmem
    decide
  · rw [List.getD_eq_default _ _ h]
    decide

theorem btoaChunks_ne_quote (bs : Bytes) : ∀ c ∈ btoaChunks bs, c ≠ '"' := by
  induction bs using btoaChunks.induct with
  | case1 => intro c hc; simp [btoaChunks] at hc
  | case2 a =>
    intro c hc
    simp only [btoaChunks, List.mem_cons, List.not_mem_nil, or_false] at hc
    rcases hc with h | h | h | h <;> subst h <;> first | exact b64Char_ne_quote _ | decide
  | case3 a b =>
    intro c hc
    simp only [btoaChunks, List.mem_cons, List.not_mem_nil, or_false] at hc
    rcases hc with h | h | h | h <;> subst h <;> first | exact b64Char_ne_quote _ | decide
  | case4 a b c rest ih =>
    intro x hx
    simp only [btoaChunks, List.mem_cons] at hx
    rcases hx with h | h | h | h | h
    · subst h; exact b64Char_ne_quote _
    · subst h; exact b64Char_ne_quote _
    · subst h; exact b64Char_ne_quote _
    · subst h; exact b64Char_ne_quote _
    · exact ih x h

/-- Base64 round-trip: decoding the encoding of a byte list recovers it. -/
theorem atobChunks_btoaChunks (bs : Bytes) (h : ∀ b ∈ bs, b < 256) :
    atobChunks (btoaChunks bs) = some bs := by
  induction bs using btoaChunks.induct with
  | case1 => rfl
  | case2 a =>
    have ha : a < 256 := h a (by simp)
    have e1 := b64Index_b64Char (a / 4) (by omega)
    have e2 := b64Index_b64Char (a % 4 * 16) (by omega)
    simp only [btoaChunks, atobChunks, e1, e2, if_pos rfl, and_self, if_true, true_and,
      Option.some.injEq, List.cons.injEq, and_true]
    omega
  | case3 a b =>
    have ha : a < 256 := h a (by simp)
    have hb : b < 256 := h b (by simp)
    have e1 := b64Index_b64Char (a / 4) (by omega)
    have e2 := b64Index_b64Char (a % 4 * 16 + b / 16) (by omega)
    have e3 := b64Index_b64Char (b % 16 * 4) (by omega)
    have n3 := b64Char_ne_eq (b % 16 * 4) (by omega)
    simp only [btoaChunks, atobChunks, e1, e2, e3, n3, if_false, if_pos rfl, ite_false,
      ite_true, Option.some.injEq, List.cons.injEq, and_true]
    omega
  | case4 a b c rest ih =>
    have ha : a < 256 := h a (by simp)
    have hb : b < 256 := h b (by simp)
    have hc : c < 256 := h c (by simp)
    have hrest : ∀ x ∈ rest, x < 256 := fun x hx => h x (by simp [hx])
    have e1 := b64Index_b64Char (a / 4) (by omega)
    have e2 := b64Index_b64Char (a % 4 * 16 + b / 16) (by omega)
    have e3 := b64Index_b64Char (b % 16 * 4 + c / 64) (by omega)
    have e4 := b64Index_b64Char (c % 64) (by omega)
    have n3 := b64Char_ne_eq (b % 16 * 4 + c / 64) (by omega)
    have n4 := b64Char_ne_eq (c % 64) (by omega)
    simp only [btoaChunks, atobChunks, e1, e2, e3, e4, n3, n4, if_false, ite_false,
      ih hrest, Option.some.injEq, List.cons.injEq, and_true]
    omega

theorem atob_btoa (bs : Bytes) (h : ∀ b ∈ bs, b < 256) : atob (btoa bs) = some bs := by
  unfold atob btoa
  rw [show (String.mk (btoaChunks bs)).toList = btoaChunks bs from rfl]
  exact atobChunks_btoaChunks bs h

theorem ofDigitsRev_toDigitsRevFuel :
    ∀ fuel n, n ≤ fuel → ofDigitsRev (toDigitsRevFuel fuel n) = n := by
  intro fuel
  induction fuel with
  | zero => intro n hn; interval_cases n; rfl
  | succ fuel ih =>
    intro n hn
    by_cases h0 : n = 0
    · subst h0; rfl
    · have hrec : n / 10 ≤ fuel := by omega
      simp only [toDigitsRevFuel, if_neg h0, ofDigitsRev, ih (n / 10) hrec]
      omega

theorem toDigitsRevFuel_lt_ten :
    ∀ fuel n, ∀ d ∈ toDigitsRevFuel fuel n, d < 10 := by
  intro fuel
  induction fuel with
  | zero => intro n d hd; simp [toDigitsRevFuel] at hd
  | succ fuel ih =>
    intro n d hd
    by_cases h0 : n = 0
    · subst h0; simp [toDigitsRevFuel] at hd
    · simp only [toDigitsRevFuel, if_neg h0, List.mem_cons] at hd
      rcases hd with h | h
      · omega
      · exact ih (n / 10) d h

theorem charVal_digitChar : ∀ d, d < 10 → charVal (digitChar d) = d := by decide

theorem isDigitChar_digitChar : ∀ d, d < 10 → isDigitChar (digitChar d) = true := by decide

theorem natDecChars_digits (n : Nat) : ∀ c ∈ natDecChars n, isDigitChar c = true := by
  unfold natDecChars
  by_cases h0 : n = 0
  · subst h0; intro c hc; simp at hc; subst hc; decide
  · rw [if_neg h0]
    intro c hc
    simp only [List.mem_reverse, List.mem_map] at hc
    obtain ⟨d, hd, rfl⟩ := hc
    exact isDigitChar_digitChar d (toDigitsRevFuel_lt_ten n n d hd)

theorem natDecChars_ne_nil (n : Nat) : natDecChars n ≠ [] := by
  unfold natDecChars
  by_cases h0 : n = 0
  · subst h0; simp
  · rw [if_neg h0]
    intro hcon
    rw [List.reverse_eq_nil_iff, List.map_eq_nil_iff] at hcon
    have := ofDigitsRev_toDigitsRevFuel n n (le_refl n)
    rw [hcon] at this
    simp [ofDigitsRev] at this
    omega

theorem foldl_digits (ds : List Nat) (hds : ∀ d ∈ ds, d < 10) (a : Nat) :
    ((ds.map digitChar).reverse.foldl (fun a c => 10 * a + charVal c) a) =
      a * 10 ^ ds.length + ofDigitsRev ds := by
  induction ds generalizing a with
  | nil => simp [ofDigitsRev]
  | cons d ds ih =>
    have hd : d < 10 := hds d (by simp)
    have hrest : ∀ x ∈ ds, x < 10 := fun x hx => hds x (by simp [hx])
    simp only [List.map_cons, List.reverse_cons, List.foldl_append, List.foldl_cons,
      List.foldl_nil, ih hrest, ofDigitsRev, charVal_digitChar d hd, List.length_cons,
      pow_succ]
    ring

theorem decValue_natDecChars (n : Nat) : decValue (natDecChars n) = n := by
  unfold decValue natDecChars
  by_cases h0 : n = 0
  · subst h0; rfl
  · rw [if_neg h0]
    rw [foldl_digits _ (toDigitsRevFuel_lt_ten n n) 0]
    simp [ofDigitsRev_toDigitsRevFuel n n (le_refl n)]

theorem takeWhile_append_all {p : Char → Bool} {l r : List Char}
    (h : ∀ c ∈ l, p c = true) : (l ++ r).takeWhile p = l ++ r.takeWhile p := by
  induction l with
  | nil => rfl
  | cons c cs ih => simp_all [List.takeWhile]

theorem takeWhile_head_neg {p : Char → Bool} {c : Char} {r : List Char}
    (h : p c = false) : (c :: r).takeWhile p = [] := by
  simp [List.takeWhile, h]

theorem parseNat_exact {ds rest : List Char} (h1 : ∀ c ∈ ds, isDigitChar c = true)
    (h2 : ds ≠ []) (h3 : rest.head? = none ∨ ∃ c r, rest = c :: r ∧ isDigitChar c = false) :
    parseNat (ds ++ rest) = some (decValue ds, rest) := by
  have htw : (ds ++ rest).takeWhile isDigitChar = ds := by
    rw [takeWhile_append_all h1]
    rcases h3 with h | ⟨c, r, rfl, hc⟩
    · rw [List.head?_eq_none_iff] at h
      subst h
      simp
    · rw [takeWhile_head_neg hc, List.append_nil]
  simp only [parseNat, htw, List.isEmpty_iff, if_neg h2, List.drop_left]

theorem isDigitChar_rbracket : isDigitChar ']' = false := by decide

theorem isDigitChar_comma : isDigitChar ',' = false := by decide

theorem natDecChars_length_pos (n : Nat) : 1 ≤ (natDecChars n).length := by
  have := natDecChars_ne_nil n
  cases hd : natDecChars n with
  | nil => exact absurd hd this
  | cons c cs => simp

theorem joinNums_length_ge : ∀ ns : List Nat, ns.length ≤ (joinNums ns).length := by
  intro ns
  induction ns with
  | nil => simp [joinNums]
  | cons n ns ih =>
    have h1 := natDecChars_length_pos n
    by_cases h : ns = []
    · subst h
      simp only [joinNums, List.isEmpty_nil, if_true, List.append_nil, List.length_cons,
        List.length_nil]
      omega
    · have hne : ns.isEmpty = false := by simp [h]
      simp only [joinNums, hne, Bool.false_eq_true, if_false, List.length_append,
        List.length_cons]
      omega

theorem parseNatsAux_joinNums :
    ∀ ns : List Nat, ns ≠ [] → ∀ rest fuel, ns.length ≤ fuel →
      parseNatsAux fuel (joinNums ns ++ ']' :: rest) = some (ns, rest) := by
  intro ns
  induction ns with
  | nil => intro h; exact absurd rfl h
  | cons n ns ih =>
    intro _ rest fuel hf
    obtain ⟨fuel, rfl⟩ : ∃ f, fuel = f + 1 := ⟨fuel - 1, by simp at hf; omega⟩
    by_cases hns : ns = []
    · subst hns
      simp only [joinNums, List.isEmpty_nil, if_true, List.append_nil]
      have hpn : parseNat (natDecChars n ++ ']' :: rest) =
          some (decValue (natDecChars n), ']' :: rest) := parseNat_exact
        (natDecChars_digits n) (natDecChars_ne_nil n)
        (Or.inr ⟨']', rest, rfl, isDigitChar_rbracket⟩)
      simp only [parseNatsAux, hpn, decValue_natDecChars]
    · have hne : ns.isEmpty = false := by simp [hns]
      have hpn : parseNat (natDecChars n ++ ',' :: (joinNums ns ++ ']' :: rest)) =
          some (decValue (natDecChars n), ',' :: (joinNums ns ++ ']' :: rest)) :=
        parseNat_exact (natDecChars_digits n) (natDecChars_ne_nil n)
          (Or.inr ⟨',', _, rfl, isDigitChar_comma⟩)
      have hlen : ns.length ≤ fuel := by simp at hf; omega
      simp only [joinNums, hne, Bool.false_eq_true, if_false, List.append_assoc,
        List.cons_append, parseNatsAux, hpn, decValue_natDecChars, ih hns rest fuel hlen]

theorem dropExact_append (p rest : List Char) : dropExact p (p ++ rest) = some rest := by
  induction p with
  | nil => rfl
  | cons c cs ih => simp [dropExact, ih]

theorem toList_stringMk (l : List Char) : (String.mk l).toList = l := rfl

theorem stringMk_toList (s : String) : String.mk s.toList = s := rfl

theorem takeWhile_data_part {d t : List Char} (hd : ∀ c ∈ d, c ≠ '"')
    (ht : t.head? = some '"') : (d ++ t).takeWhile (· ≠ '"') = d := by
  have h1 : ∀ c ∈ d, (decide (c ≠ '"')) = true := by
    intro c hc
    simp [hd c hc]
  rw [takeWhile_append_all h1]
  cases t with
  | nil => simp at ht
  | cons c r =>
    simp only [List.head?_cons, Option.some.injEq] at ht
    subst ht
    rw [takeWhile_head_neg (by decide), List.append_nil]

/-- Envelope round-trip: parsing the serialized envelope recovers the nonce and
the base64 payload, provided the payload text contains no quote character
(base64 text never does). -/
theorem parseEnvelope_stringifyEnvelope (iv : Bytes) (d : String)
    (hd : ∀ c ∈ d.toList, c ≠ '"') :
    parseEnvelope (stringifyEnvelope iv d) = some (iv, d) := by
  have htl : (stringifyEnvelope iv d).toList =
      envHeadText ++ (joinNums iv ++ (']' :: (envMidText ++ (d.toList ++ envTailText)))) := by
    rw [stringifyEnvelope, toList_stringMk]
    simp [List.append_assoc]
  have hdrop2 : dropExact envMidText (envMidText ++ (d.toList ++ envTailText)) =
      some (d.toList ++ envTailText) := dropExact_append _ _
  have htw : (d.toList ++ envTailText).takeWhile (· ≠ '"') = d.toList :=
    takeWhile_data_part hd (by rfl)
  have hdropdata : (d.toList ++ envTailText).drop d.toList.length = envTailText :=
    List.drop_left _ _
  cases iv with
  | nil =>
    simp only [parseEnvelope, htl, dropExact_append, joinNums, List.nil_append,
      List.head?_cons, eq_self_iff_true, if_true, ite_true, List.tail_cons, hdrop2]
    simp only [htw, hdropdata]
    simp only [envTailText, stringMk_toList]
  | cons n ns =>
    have hne : (n :: ns : List Nat) ≠ [] := by simp
    obtain ⟨c, cs, hcs⟩ : ∃ c cs, natDecChars n = c :: cs := by
      cases hd2 : natDecChars n with
      | nil => exact absurd hd2 (natDecChars_ne_nil n)
      | cons c cs => exact ⟨c, cs, rfl⟩
    have hcdig : isDigitChar c = true := by
      have := natDecChars_digits n c (by rw [hcs]; simp)
      exact this
    have hcne : c ≠ ']' := by
      intro hcon
      rw [hcon] at hcdig
      exact absurd hcdig (by decide)
    have hjoin : ∃ tl, joinNums (n :: ns) = c :: tl := by
      by_cases hns : ns = []
      · subst hns
        refine ⟨cs, ?_⟩
        simp [joinNums, hcs]
      · have hnse : ns.isEmpty = false := by simp [hns]
        refine ⟨cs ++ ',' :: joinNums ns, ?_⟩
        simp [joinNums, hnse, hcs]
    obtain ⟨tl, htlj⟩ := hjoin
    have hhead : (joinNums (n :: ns) ++
        ']' :: (envMidText ++ (d.toList ++ envTailText))).head? = some c := by
      rw [htlj]
      rfl
    have hfuel : (n :: ns : List Nat).length ≤
        (joinNums (n :: ns) ++ ']' :: (envMidText ++ (d.toList ++ envTailText))).length + 1 := by
      have h1 := joinNums_length_ge (n :: ns)
      simp only [List.length_append, List.length_cons] at h1 ⊢
      omega
    have hparse := parseNatsAux_joinNums (n :: ns) hne
      (envMidText ++ (d.toList ++ envTailText))
      ((joinNums (n :: ns) ++ ']' :: (envMidText ++ (d.toList ++ envTailText))).length + 1) hfuel
    simp only [parseEnvelope, htl, dropExact_append, hhead, Option.some.injEq, hcne,
      if_false, ite_false, hparse, hdrop2]
    simp only [htw, hdropdata]
    simp only [envTailText, stringMk_toList]

theorem stringifyEnvelope_ne_empty (iv : Bytes) (d : String) :
    stringifyEnvelope iv d ≠ "" := by
  unfold stringifyEnvelope
  intro hcon
  have : (envHeadText ++ joinNums iv ++ (']' :: envMidText) ++ d.toList ++ envTailText) =
      ([] : List Char) := congrArg String.toList hcon
  simp [envHeadText] at this

theorem map_mod_eq_self {l : Bytes} (h : ∀ b ∈ l, b < 256) : l.map (· % 256) = l := by
  induction l with
  | nil => rfl
  | cons b bs ih =>
    have hb : b < 256 := h b (by simp)
    have hbs : ∀ x ∈ bs, x < 256 := fun x hx => h x (by simp [hx])
    simp [ih hbs, Nat.mod_eq_of_lt hb]

theorem drawIv_lt (st : StoreState) (h : WFRand st) : ∀ b ∈ drawIv st, b < 256 := by
  intro b hb
  simp only [drawIv, List.mem_map] at hb
  obtain ⟨j, _, rfl⟩ := hb
  exact h st.randIdx j

/-- Cipher round-trip: decrypting an envelope freshly produced by `encrypt`
recovers the plaintext. -/
theorem decrypt_encrypt (P : WebCrypto) (st : StoreState) (data : String)
    (h : WFRand st) :
    AESGCMEncryptionService.decrypt P (AESGCMEncryptionService.encrypt P st data).1 =
      some data := by
  unfold AESGCMEncryptionService.encrypt AESGCMEncryptionService.decrypt
  have hq : ∀ c ∈ (btoa (P.aesGcmEncrypt (drawIv st) (P.textEncode data))).toList,
      c ≠ '"' := by
    intro c hc
    exact btoaChunks_ne_quote _ c hc
  simp only [parseEnvelope_stringifyEnvelope _ _ hq,
    atob_btoa _ (fun b hb => P.encrypt_bytes _ _ b hb),
    map_mod_eq_self (drawIv_lt st h),
    P.decrypt_encrypt _ _ (fun b hb => P.textEncode_bytes _ b hb),
    P.textDecode_encode]

/-! ### localStorage lemmas -/

theorem lsGetItem_nil (k : String) : lsGetItem [] k = none := rfl

theorem lsGetItem_cons_ne {p : String × String} {m : List (String × String)} {k : String}
    (h : p.1 ≠ k) : lsGetItem (p :: m) k = lsGetItem m k := by
  have hb : (p.1 == k) = false := by simp [h]
  simp [lsGetItem, List.find?, hb]

theorem lsGetItem_cons_eq {p : String × String} {m : List (String × String)} {k : String}
    (h : p.1 = k) : lsGetItem (p :: m) k = some p.2 := by
  simp [lsGetItem, List.find?, h]

theorem lsSetItem_get_self (m : List (String × String)) (k v : String) :
    lsGetItem (lsSetItem m k v) k = some v := by
  induction m with
  | nil => simp [lsSetItem, lsGetItem, List.find?]
  | cons p rest ih =>
    by_cases hp : p.1 = k
    · have hany : (p :: rest).any (fun q => q.1 == k) = true := by
        simp [List.any_cons, hp]
      simp only [lsSetItem, hany, if_true, List.map_cons]
      rw [show (if p.1 == k then (k, v) else p) = (k, v) by simp [hp]]
      exact lsGetItem_cons_eq rfl
    · by_cases hany : rest.any (fun q => q.1 == k)
      · have hany2 : (p :: rest).any (fun q => q.1 == k) = true := by
          simp [List.any_cons, hany]
        have hmap : (p :: rest).map (fun q => if q.1 == k then (k, v) else q) =
            p :: rest.map (fun q => if q.1 == k then (k, v) else q) := by
          simp [hp]
        simp only [lsSetItem, hany2, if_true, hmap]
        rw [lsGetItem_cons_ne hp]
        have := ih
        simp only [lsSetItem, hany, if_true] at this
        exact this
      · have hany2 : (p :: rest).any (fun q => q.1 == k) = false := by
          simp [List.any_cons, hany, hp]
        simp only [lsSetItem, hany2, Bool.false_eq_true, if_false, List.cons_append]
        rw [lsGetItem_cons_ne hp]
        have := ih
        simp only [lsSetItem, hany, Bool.false_eq_true, if_false] at this
        exact this

theorem lsSetItem_get_ne (m : List (String × String)) (k v k2 : String) (h : k2 ≠ k) :
    lsGetItem (lsSetItem m k v) k2 = lsGetItem m k2 := by
  induction m with
  | nil =>
    have hkk2 : ((k, v) : String × String).1 ≠ k2 := by simpa using Ne.symm h
    simp only [lsSetItem, List.any_nil, Bool.false_eq_true, if_false, List.nil_append]
    rw [lsGetItem_cons_ne hkk2]
  | cons p rest ih =>
    by_cases hany : (p :: rest).any (fun q => q.1 == k) = true
    · simp only [lsSetItem, hany, if_true, List.map_cons]
      by_cases hp : p.1 = k
      · rw [show (if p.1 == k then (k, v) else p) = (k, v) by simp [hp]]
        rw [lsGetItem_cons_ne (show ((k, v) : String × String).1 ≠ k2 by simpa using Ne.symm h)]
        rw [lsGetItem_cons_ne (show p.1 ≠ k2 by rw [hp]; exact Ne.symm h)]
        by_cases hany2 : rest.any (fun q => q.1 == k) = true
        · have := ih
          simp only [lsSetItem, hany2, if_true] at this
          exact this
        · rw [Bool.not_eq_true] at hany2
          rw [List.any_eq_false] at hany2
          have hmapid : rest.map (fun q => if q.1 == k then (k, v) else q) = rest := by
            rw [show rest = rest.map id by simp]
            rw [List.map_map]
            apply List.map_congr_left
            intro q hq
            have hqf : ¬((q.1 == k) = true) := hany2 q (by simpa using hq)
            rw [Bool.not_eq_true] at hqf
            simp only [Function.comp_apply, id_eq, hqf, Bool.false_eq_true, if_false]
          rw [hmapid]
      · rw [show (if p.1 == k then (k, v) else p) = p by simp [hp]]
        have hany2 : rest.any (fun q => q.1 == k) = true := by
          simp only [List.any_cons, Bool.or_eq_true] at hany
          rcases hany with h1 | h2
          · exact absurd (by simpa using h1) hp
          · exact h2
        have ihx := ih
        simp only [lsSetItem, hany2, if_true] at ihx
        by_cases hpk2 : p.1 = k2
        · rw [lsGetItem_cons_eq hpk2, lsGetItem_cons_eq hpk2]
        · rw [lsGetItem_cons_ne hpk2, lsGetItem_cons_ne hpk2]
          exact ihx
    · rw [Bool.not_eq_true] at hany
      have hany2 : rest.any (fun q => q.1 == k) = false := by
        simp only [List.any_cons, Bool.or_eq_false_iff] at hany
        exact hany.2
      simp only [lsSetItem, hany, Bool.false_eq_true, if_false, List.cons_append]
      have ihx := ih
      simp only [lsSetItem, hany2, Bool.false_eq_true, if_false] at ihx
      by_cases hpk2 : p.1 = k2
      · rw [lsGetItem_cons_eq hpk2, lsGetItem_cons_eq hpk2]
      · rw [lsGetItem_cons_ne hpk2, lsGetItem_cons_ne hpk2]
        exact ihx

theorem decrypt_envOf (P : WebCrypto) {V : Type} (C : JsonCodec V) (st : StoreState)
    (value : V) (h : WFRand st) :
    AESGCMEncryptionService.decrypt P (envOf P C st value) = some (C.stringify value) :=
  decrypt_encrypt P st (C.stringify value) h

theorem set_explicit (P : WebCrypto) {V : Type} (C : JsonCodec V) (pfx : String)
    (fuel : Nat) (tableName : String) (value : V) (k : String) (st : StoreState)
    (hk : k ≠ "") :
    EncryptedStorage.set P C pfx (fuel + 1) tableName value (some k) st =
      some ((value, k),
        { st with
          medium := lsSetItem st.medium (storageKey pfx tableName k) (envOf P C st value),
          randIdx := st.randIdx + 1 }) := by
  have hkf : keyFalsy (some k) = false := by simp [keyFalsy, hk]
  simp [EncryptedStorage.set, hkf, AESGCMEncryptionService.encrypt, envOf, Option.isNone]

theorem set_empty_key (P : WebCrypto) {V : Type} (C : JsonCodec V) (pfx : String)
    (fuel : Nat) (tableName : String) (value : V) (st : StoreState) :
    EncryptedStorage.set P C pfx (fuel + 1) tableName value (some "") st =
      some ((value, st.uuids st.uuidIdx),
        { st with
          medium := lsSetItem st.medium
            (storageKey pfx tableName (st.uuids st.uuidIdx)) (envOf P C st value),
          randIdx := st.randIdx + 1,
          uuidIdx := st.uuidIdx + 1 }) := by
  simp [EncryptedStorage.set, keyFalsy, AESGCMEncryptionService.encrypt, envOf,
    Option.isNone, drawIv]

theorem set_none_fresh (P : WebCrypto) {V : Type} (C : JsonCodec V) (pfx : String)
    (fuel : Nat) (tableName : String) (value : V) (st : StoreState)
    (hex : EncryptedStorage.«exists» pfx tableName (st.uuids st.uuidIdx) st.medium = false) :
    EncryptedStorage.set P C pfx (fuel + 1) tableName value none st =
      some ((value, st.uuids st.uuidIdx),
        { st with
          medium := lsSetItem st.medium
            (storageKey pfx tableName (st.uuids st.uuidIdx)) (envOf P C st value),
          randIdx := st.randIdx + 1,
          uuidIdx := st.uuidIdx + 1 }) := by
  simp [EncryptedStorage.set, keyFalsy, hex, AESGCMEncryptionService.encrypt, envOf,
    Option.isNone, drawIv]

theorem set_none_collision (P : WebCrypto) {V : Type} (C : JsonCodec V) (pfx : String)
    (fuel : Nat) (tableName : String) (value : V) (st : StoreState)
    (hex : EncryptedStorage.«exists» pfx tableName (st.uuids st.uuidIdx) st.medium = true) :
    EncryptedStorage.set P C pfx (fuel + 1) tableName value none st =
      EncryptedStorage.set P C pfx fuel tableName value none (bumpUuid st) := by
  simp [EncryptedStorage.set, keyFalsy, hex, bumpUuid, Option.isNone]

/-- What a successful `set` call did: it returned the stored value paired with
its assigned key, wrote exactly the envelope of `value` at the composite key,
consumed one nonce draw, left the random streams alone, never consumed a UUID
draw for an explicit non-empty key, assigned a drawn UUID for falsy keys, and
— for an omitted key — only committed to a key whose composite entry was not
truthy in the starting medium. -/
theorem set_spec (P : WebCrypto) {V : Type} (C : JsonCodec V) (pfx : String) :
    ∀ (fuel : Nat) (tableName : String) (value : V) (key : Option String)
      (st : StoreState) (r : V × String) (st2 : StoreState),
      EncryptedStorage.set P C pfx fuel tableName value key st = some (r, st2) →
      r.1 = value ∧
      st2.medium = lsSetItem st.medium (storageKey pfx tableName r.2) (envOf P C st value) ∧
      st2.randBytes = st.randBytes ∧ st2.randIdx = st.randIdx + 1 ∧
      st2.uuids = st.uuids ∧ st.uuidIdx ≤ st2.uuidIdx ∧
      (∀ k, key = some k → k ≠ "" → r.2 = k ∧ st2.uuidIdx = st.uuidIdx) ∧
      ((key = none ∨ key = some "") → ∃ i, st.uuidIdx ≤ i ∧ r.2 = st.uuids i) ∧
      (key = none →
        EncryptedStorage.«exists» pfx tableName r.2 st.medium = false) := by
  intro fuel
  induction fuel with
  | zero =>
    intro tableName value key st r st2 h
    simp [EncryptedStorage.set] at h
  | succ fuel ih =>
    intro tableName value key st r st2 h
    match key with
    | some k =>
      by_cases hk : k = ""
      · subst hk
        rw [set_empty_key] at h
        have hpair := Option.some.inj h
        have hr : r = (value, st.uuids st.uuidIdx) := (Prod.mk.injEq _ _ _ _ ▸ hpair).1.symm
        have hst2 := (Prod.mk.injEq _ _ _ _ ▸ hpair).2.symm
        subst hr
        subst hst2
        refine ⟨rfl, rfl, rfl, rfl, rfl, by simp, ?_, ?_, ?_⟩
        · intro k2 hk2 hk2ne
          exact absurd (Option.some.inj hk2).symm hk2ne
        · intro _
          exact ⟨st.uuidIdx, le_refl _, rfl⟩
        · intro hcon
          exact absurd hcon (by simp)
      · rw [set_explicit P C pfx fuel tableName value k st hk] at h
        have hpair := Option.some.inj h
        have hr : r = (value, k) := (Prod.mk.injEq _ _ _ _ ▸ hpair).1.symm
        have hst2 := (Prod.mk.injEq _ _ _ _ ▸ hpair).2.symm
        subst hr
        subst hst2
        refine ⟨rfl, rfl, rfl, rfl, rfl, le_refl _, ?_, ?_, ?_⟩
        · intro k2 hk2 _
          exact ⟨congrArg Prod.snd (rfl : ((value, k) : V × String) = (value, k)) ▸
            (Option.some.inj hk2).symm ▸ rfl, rfl⟩
        · intro hcon
          rcases hcon with hcon | hcon
          · exact absurd hcon (by simp)
          · exact absurd (Option.some.inj hcon) hk
        · intro hcon
          exact absurd hcon (by simp)
    | none =>
      by_cases hex : EncryptedStorage.«exists» pfx tableName (st.uuids st.uuidIdx)
          st.medium = true
      · rw [set_none_collision P C pfx fuel tableName value st hex] at h
        obtain ⟨h1, h2, h3, h4, h5, h6, _, h8, h9⟩ := ih tableName value none (bumpUuid st)
          r st2 h
        refine ⟨h1, h2, h3, h4, h5, ?_, ?_, ?_, h9⟩
        · calc st.uuidIdx ≤ st.uuidIdx + 1 := by omega
            _ ≤ st2.uuidIdx := h6
        · intro k2 hk2 _
          exact absurd hk2 (by simp)
        · intro _
          obtain ⟨i, hi1, hi2⟩ := h8 (Or.inl rfl)
          exact ⟨i, by simp [bumpUuid] at hi1; omega, hi2⟩
      · rw [Bool.not_eq_true] at hex
        rw [set_none_fresh P C pfx fuel tableName value st hex] at h
        have hpair := Option.some.inj h
        have hr : r = (value, st.uuids st.uuidIdx) := (Prod.mk.injEq _ _ _ _ ▸ hpair).1.symm
        have hst2 := (Prod.mk.injEq _ _ _ _ ▸ hpair).2.symm
        subst hr
        subst hst2
        refine ⟨rfl, rfl, rfl, rfl, rfl, by simp, ?_, ?_, ?_⟩
        · intro k2 hk2 _
          exact absurd hk2 (by simp)
        · intro _
          exact ⟨st.uuidIdx, le_refl _, rfl⟩
        · intro _
          exact hex

/-! ### Read-back helpers -/

theorem get_of_entry (P : WebCrypto) {V : Type} (C : JsonCodec V)
    (pfx tableName k : String) (m : List (String × String)) (env : String) (value : V)
    (hdec : AESGCMEncryptionService.decrypt P env = some (C.stringify value))
    (hne : env ≠ "")
    (hm : lsGetItem m (storageKey pfx tableName k) = some env) :
    EncryptedStorage.get P C pfx tableName k m = Except.ok (some value) := by
  simp only [EncryptedStorage.get, hm, if_neg hne, hdec, C.parse_stringify]

theorem exists_of_entry (pfx tableName k : String) (m : List (String × String))
    (env : String) (hne : env ≠ "")
    (hm : lsGetItem m (storageKey pfx tableName k) = some env) :
    EncryptedStorage.«exists» pfx tableName k m = true := by
  simp only [EncryptedStorage.«exists», hm]
  simp [hne]

theorem wfRand_transfer {st st2 : StoreState} (h : st2.randBytes = st.randBytes)
    (hw : WFRand st) : WFRand st2 := by
  intro i j
  rw [h]
  exact hw i j

theorem string_data_inj {s t : String} (h : s.data = t.data) : s = t := by
  cases s
  cases t
  exact congrArg String.mk h

theorem storageKey_inj_key (pfx tableName : String) {a b : String}
    (h : storageKey pfx tableName a = storageKey pfx tableName b) : a = b := by
  have hd := congrArg String.data h
  simp only [storageKey, String.data_append, List.append_assoc] at hd
  exact string_data_inj
    (List.append_cancel_left (List.append_cancel_left
      (List.append_cancel_left (List.append_cancel_left hd))))

/-- C1: for every table and JSON-serializable value, once `set` returns the
stored value with its assigned key, `get` on that key returns a value
deep-equal to the original: the JSON serialization is encrypted, decrypted and
parsed back. -/
theorem c1_set_get_roundtrip (P : WebCrypto) {V : Type} (C : JsonCodec V) (pfx : String)
    (fuel : Nat) (tableName : String) (value : V) (key : Option String) (st : StoreState)
    (r : V × String) (st2 : StoreState) (hrand : WFRand st)
    (h : EncryptedStorage.set P C pfx fuel tableName value key st = some (r, st2)) :
    EncryptedStorage.get P C pfx tableName r.2 st2.medium = Except.ok (some value) := by
  obtain ⟨_, hmed, _, _, _, _, _, _, _⟩ :=
    set_spec P C pfx fuel tableName value key st r st2 h
  rw [hmed]
  exact get_of_entry P C pfx tableName r.2 _ _ value
    (decrypt_envOf P C st value hrand)
    (stringifyEnvelope_ne_empty _ _)
    (lsSetItem_get_self _ _ _)

/-- C4: a `set` with an explicit key always overwrites: after
`set(T, v1, k)` then `set(T, v2, k)`, only `v2` is retrievable at `k`. -/
theorem c4_explicit_overwrite (P : WebCrypto) {V : Type} (C : JsonCodec V) (pfx : String)
    (fuel1 fuel2 : Nat) (tableName : String) (v1 v2 : V) (k : String)
    (st st1 st2 : StoreState) (r1 r2 : V × String) (hk : k ≠ "") (hrand : WFRand st)
    (h1 : EncryptedStorage.set P C pfx fuel1 tableName v1 (some k) st = some (r1, st1))
    (h2 : EncryptedStorage.set P C pfx fuel2 tableName v2 (some k) st1 = some (r2, st2)) :
    r2.2 = k ∧
    EncryptedStorage.get P C pfx tableName k st2.medium = Except.ok (some v2) := by
  obtain ⟨_, _, hrb1, _, _, _, _, _, _⟩ :=
    set_spec P C pfx fuel1 tableName v1 (some k) st r1 st1 h1
  obtain ⟨_, hmed2, _, _, _, _, hkey2, _, _⟩ :=
    set_spec P C pfx fuel2 tableName v2 (some k) st1 r2 st2 h2
  obtain ⟨hr2, _⟩ := hkey2 k rfl hk
  have hrand1 : WFRand st1 := wfRand_transfer hrb1 hrand
  refine ⟨hr2, ?_⟩
  rw [hmed2, hr2]
  exact get_of_entry P C pfx tableName k _ _ v2
    (decrypt_envOf P C st1 v2 hrand1)
    (stringifyEnvelope_ne_empty _ _)
    (lsSetItem_get_self _ _ _)

/-- C5: `get` returns `null` (absent, not an error) when the medium has no
entry at the composite key, and propagates a `DecryptionError` when an entry
is present but decryption fails; the two outcomes are distinct constructors. -/
theorem c5_absent_vs_decryption_error (P : WebCrypto) {V : Type} (C : JsonCodec V)
    (pfx tableName key : String) (m : List (String × String)) :
    (lsGetItem m (storageKey pfx tableName key) = none →
      EncryptedStorage.get P C pfx tableName key m = Except.ok none) ∧
    (∀ item, lsGetItem m (storageKey pfx tableName key) = some item → item ≠ "" →
      AESGCMEncryptionService.decrypt P item = none →
      EncryptedStorage.get P C pfx tableName key m =
        Except.error StorageErr.decryptionError) := by
  constructor
  · intro h
    simp [EncryptedStorage.get, h]
  · intro item h hne hdec
    simp only [EncryptedStorage.get, h, if_neg hne, hdec]

/-- C9: `set(T, V, "")` with the explicit empty-string key stores under a
freshly drawn UUID (because `key || crypto.randomUUID()` treats `""` as
falsy), consumes exactly one UUID draw with no collision retry (the retry
guard requires `key == undefined`), and writes nothing under the literal key
`""`. -/
theorem c9_empty_string_key (P : WebCrypto) {V : Type} (C : JsonCodec V) (pfx : String)
    (fuel : Nat) (tableName : String) (value : V) (st : StoreState) :
    EncryptedStorage.set P C pfx (fuel + 1) tableName value (some "") st =
      some ((value, st.uuids st.uuidIdx),
        { st with
          medium := lsSetItem st.medium
            (storageKey pfx tableName (st.uuids st.uuidIdx)) (envOf P C st value),
          randIdx := st.randIdx + 1,
          uuidIdx := st.uuidIdx + 1 }) ∧
    (st.uuids st.uuidIdx ≠ "" →
      lsGetItem (lsSetItem st.medium
          (storageKey pfx tableName (st.uuids st.uuidIdx)) (envOf P C st value))
        (storageKey pfx tableName "") =
      lsGetItem st.medium (storageKey pfx tableName "")) := by
  refine ⟨set_empty_key P C pfx fuel tableName value st, ?_⟩
  intro hu
  apply lsSetItem_get_ne
  intro hcon
  exact hu (storageKey_inj_key pfx tableName hcon).symm

theorem stWit_wfRand : WFRand stWit := by
  intro i j
  show (65 : Nat) < 256
  decide

/-- Witness for C1 at a concrete run. -/
theorem c1_set_get_roundtrip_witness :
    EncryptedStorage.get cipherId codecId "@edb" "todos" ((setResC1.getD dfltRes).1.2)
      ((setResC1.getD dfltRes).2.medium) = Except.ok (some "hello") :=
  c1_set_get_roundtrip cipherId codecId "@edb" 1 "todos" "hello" none stWit
    ((setResC1.getD dfltRes).1) ((setResC1.getD dfltRes).2) stWit_wfRand rfl

/-- Witness for C4 at a concrete run. -/
theorem c4_explicit_overwrite_witness :
    (setResC4b.getD dfltRes).1.2 = "k" ∧
    EncryptedStorage.get cipherId codecId "@edb" "todos" "k"
      ((setResC4b.getD dfltRes).2.medium) = Except.ok (some "v2") :=
  c4_explicit_overwrite cipherId codecId "@edb" 1 1 "todos" "v1" "v2" "k" stWit
    ((setResC4a.getD dfltRes).2) ((setResC4b.getD dfltRes).2)
    ((setResC4a.getD dfltRes).1) ((setResC4b.getD dfltRes).1)
    (by decide) stWit_wfRand rfl rfl

/-- Witness for C5 at a concrete medium: a present-but-undecryptable entry
errors, a missing key is absent. -/
theorem c5_absent_vs_decryption_error_witness :
    EncryptedStorage.get cipherId codecId "@edb" "todos" "k1" mWitBad =
      Except.error StorageErr.decryptionError ∧
    EncryptedStorage.get cipherId codecId "@edb" "todos" "missing" mWitBad =
      Except.ok none :=
  ⟨(c5_absent_vs_decryption_error cipherId codecId "@edb" "todos" "k1" mWitBad).2
      "garbage" rfl (by decide) rfl,
   (c5_absent_vs_decryption_error cipherId codecId "@edb" "todos" "missing" mWitBad).1 rfl⟩

/-- Witness for C9 at a concrete run: the composite key built from the empty
record key is untouched. -/
theorem c9_empty_string_key_witness :
    lsGetItem (lsSetItem stWit.medium
        (storageKey "@edb" "todos" (stWit.uuids stWit.uuidIdx))
        (envOf cipherId codecId stWit "vv"))
      (storageKey "@edb" "todos" "") =
    lsGetItem stWit.medium (storageKey "@edb" "todos" "") :=
  (c9_empty_string_key cipherId codecId "@edb" 0 "todos" "vv" stWit).2 (by decide)

/-- C7: every entry written by `set` lives at the literal key
`{prefix}_{tableName}_{recordKey}` (default prefix `"@edb"`), and its value is
the JSON text whose `iv` field is the nonce as a decimal byte array and whose
`data` field is the base64 ciphertext+tag. -/
theorem c7_storage_format (po : Option String) (P : WebCrypto) {V : Type}
    (C : JsonCodec V) (fuel : Nat) (tableName : String) (value : V)
    (key : Option String) (st : StoreState) (r : V × String) (st2 : StoreState)
    (h : EncryptedStorage.set P C (storePfx po) fuel tableName value key st =
      some (r, st2)) :
    storePfx none = "@edb" ∧
    (drawIv st).length = 12 ∧
    lsGetItem st2.medium (storePfx po ++ "_" ++ tableName ++ "_" ++ r.2) =
      some (String.mk (("\x7b\"iv\":[").toList ++ joinNums (drawIv st) ++
        (']' :: (",\"data\":\"").toList) ++
        (btoa (P.aesGcmEncrypt (drawIv st) (P.textEncode (C.stringify value)))).toList ++
        ['"', '\x7d'])) := by
  refine ⟨rfl, by simp [drawIv], ?_⟩
  obtain ⟨_, hmed, _, _, _, _, _, _, _⟩ :=
    set_spec P C (storePfx po) fuel tableName value key st r st2 h
  rw [hmed]
  exact lsSetItem_get_self _ _ _

/-- Witness for C7 at a concrete run. -/
theorem c7_storage_format_witness :
    storePfx none = "@edb" ∧
    (drawIv stWit).length = 12 ∧
    lsGetItem ((setResC1.getD dfltRes).2.medium)
      (storePfx none ++ "_" ++ "todos" ++ "_" ++ (setResC1.getD dfltRes).1.2) =
      some (String.mk (("\x7b\"iv\":[").toList ++ joinNums (drawIv stWit) ++
        (']' :: (",\"data\":\"").toList) ++
        (btoa (cipherId.aesGcmEncrypt (drawIv stWit)
          (cipherId.textEncode (codecId.stringify "hello")))).toList ++
        ['"', '\x7d'])) :=
  c7_storage_format none cipherId codecId 1 "todos" "hello" none stWit
    ((setResC1.getD dfltRes).1) ((setResC1.getD dfltRes).2) rfl

/-- C8: each `encrypt` call draws a fresh 96-bit (12-byte) nonce and advances
the random stream, and whenever the two draws differ (as two independent
random draws do), the two envelopes produced for the same plaintext differ:
the nonce is embedded in the envelope, so equal envelopes force equal
nonces. -/
theorem c8_fresh_nonce (P : WebCrypto) (st : StoreState) (d1 d2 : String) :
    (drawIv st).length = 12 ∧
    (AESGCMEncryptionService.encrypt P st d1).2.randIdx = st.randIdx + 1 ∧
    (drawIv st ≠ drawIv (AESGCMEncryptionService.encrypt P st d1).2 →
      (AESGCMEncryptionService.encrypt P st d1).1 ≠
        (AESGCMEncryptionService.encrypt P
          (AESGCMEncryptionService.encrypt P st d1).2 d2).1) := by
  refine ⟨by simp [drawIv], rfl, ?_⟩
  intro hdiff hcon
  have h1 := parseEnvelope_stringifyEnvelope (drawIv st)
    (btoa (P.aesGcmEncrypt (drawIv st) (P.textEncode d1)))
    (fun c hc => btoaChunks_ne_quote _ c hc)
  have h2 := parseEnvelope_stringifyEnvelope
    (drawIv (AESGCMEncryptionService.encrypt P st d1).2)
    (btoa (P.aesGcmEncrypt (drawIv (AESGCMEncryptionService.encrypt P st d1).2)
      (P.textEncode d2)))
    (fun c hc => btoaChunks_ne_quote _ c hc)
  have hcon2 : parseEnvelope (AESGCMEncryptionService.encrypt P st d1).1 =
      parseEnvelope (AESGCMEncryptionService.encrypt P
        (AESGCMEncryptionService.encrypt P st d1).2 d2).1 := by rw [hcon]
  rw [show (AESGCMEncryptionService.encrypt P st d1).1 = stringifyEnvelope (drawIv st)
      (btoa (P.aesGcmEncrypt (drawIv st) (P.textEncode d1))) from rfl] at hcon2
  rw [show (AESGCMEncryptionService.encrypt P
        (AESGCMEncryptionService.encrypt P st d1).2 d2).1 =
      stringifyEnvelope (drawIv (AESGCMEncryptionService.encrypt P st d1).2)
        (btoa (P.aesGcmEncrypt (drawIv (AESGCMEncryptionService.encrypt P st d1).2)
          (P.textEncode d2))) from rfl] at hcon2
  rw [h1, h2] at hcon2
  have := (Prod.mk.injEq _ _ _ _ ▸ Option.some.inj hcon2).1
  exact hdiff this

/-- Witness for C8 at a concrete state with distinct draws. -/
theorem c8_fresh_nonce_witness :
    (AESGCMEncryptionService.encrypt cipherId stWit2 "p").1 ≠
      (AESGCMEncryptionService.encrypt cipherId
        (AESGCMEncryptionService.encrypt cipherId stWit2 "p").2 "p").1 :=
  (c8_fresh_nonce cipherId stWit2 "p" "p").2.2 (by decide)

/-! ### Removal and enumeration lemmas -/

theorem lsRemoveItem_get_ne (m : List (String × String)) (k k2 : String) (h : k2 ≠ k) :
    lsGetItem (lsRemoveItem m k) k2 = lsGetItem m k2 := by
  induction m with
  | nil => rfl
  | cons p rest ih =>
    by_cases hp : p.1 = k
    · have hf : (!(p.1 == k)) = false := by simp [hp]
      simp only [lsRemoveItem, List.filter_cons, hf, Bool.false_eq_true, if_false]
      rw [lsGetItem_cons_ne (show p.1 ≠ k2 by rw [hp]; exact Ne.symm h)]
      have := ih
      simp only [lsRemoveItem] at this
      exact this
    · have hf : (!(p.1 == k)) = true := by simp [hp]
      simp only [lsRemoveItem, List.filter_cons, hf, if_true]
      by_cases hpk2 : p.1 = k2
      · rw [lsGetItem_cons_eq hpk2, lsGetItem_cons_eq hpk2]
      · rw [lsGetItem_cons_ne hpk2, lsGetItem_cons_ne hpk2]
        have := ih
        simp only [lsRemoveItem] at this
        exact this

theorem lsKeys_removeItem (m : List (String × String)) (k : String) :
    lsKeys (lsRemoveItem m k) = (lsKeys m).filter (fun x => !(x == k)) := by
  induction m with
  | nil => rfl
  | cons p rest ih =>
    by_cases hp : p.1 = k
    · have hf : (!(p.1 == k)) = false := by simp [hp]
      simp only [lsRemoveItem, lsKeys, List.filter_cons, hf, Bool.false_eq_true, if_false,
        List.map_cons]
      have := ih
      simp only [lsRemoveItem, lsKeys] at this
      exact this
    · have hf : (!(p.1 == k)) = true := by simp [hp]
      simp only [lsRemoveItem, lsKeys, List.filter_cons, hf, if_true, List.map_cons]
      have := ih
      simp only [lsRemoveItem, lsKeys] at this
      rw [this]

theorem getAllGo_congr (P : WebCrypto) {V : Type} (C : JsonCodec V)
    (pfx tableName : String) (m1 m2 : List (String × String)) (keys : List String)
    (h : ∀ key ∈ keys, lsGetItem m1 key = lsGetItem m2 key) :
    EncryptedStorage.getAllGo P C pfx tableName m1 keys =
      EncryptedStorage.getAllGo P C pfx tableName m2 keys := by
  induction keys with
  | nil => rfl
  | cons key keys ih =>
    have hk := h key (by simp)
    have hr : ∀ k2 ∈ keys, lsGetItem m1 k2 = lsGetItem m2 k2 :=
      fun k2 hk2 => h k2 (by simp [hk2])
    simp only [EncryptedStorage.getAllGo, hk, ih hr]

theorem getAllGo_skip_empty (P : WebCrypto) {V : Type} (C : JsonCodec V)
    (pfx tableName : String) (m : List (String × String)) (bad : String)
    (hbad : lsGetItem m bad = some "") (keys : List String) :
    EncryptedStorage.getAllGo P C pfx tableName m keys =
      EncryptedStorage.getAllGo P C pfx tableName m
        (keys.filter (fun x => !(x == bad))) := by
  induction keys with
  | nil => rfl
  | cons key keys ih =>
    by_cases hk : key = bad
    · subst hk
      simp only [List.filter_cons, show (!(key == key)) = false by simp, Bool.false_eq_true,
        if_false]
      simp only [EncryptedStorage.getAllGo, hbad, eq_self_iff_true, if_true, ite_true, ih]
    · have hf : (!(key == bad)) = true := by simp [hk]
      simp only [List.filter_cons, hf, if_true]
      simp only [EncryptedStorage.getAllGo, ih]

/-- C10: a stored empty-string entry at a composite key is falsy everywhere:
`exists` reports `false`, `get` returns absent without decrypting, and
`getAll` silently skips the entry (its result is that of the medium with the
entry deleted, never an abort caused by that entry). -/
theorem c10_empty_entry (P : WebCrypto) {V : Type} (C : JsonCodec V)
    (pfx tableName key : String) (m : List (String × String))
    (h : lsGetItem m (storageKey pfx tableName key) = some "") :
    EncryptedStorage.«exists» pfx tableName key m = false ∧
    EncryptedStorage.get P C pfx tableName key m = Except.ok none ∧
    EncryptedStorage.getAll P C pfx tableName m =
      EncryptedStorage.getAll P C pfx tableName
        (lsRemoveItem m (storageKey pfx tableName key)) := by
  refine ⟨by simp [EncryptedStorage.«exists», h], by simp [EncryptedStorage.get, h], ?_⟩
  unfold EncryptedStorage.getAll
  rw [lsKeys_removeItem m (storageKey pfx tableName key)]
  rw [List.filter_comm]
  rw [getAllGo_congr P C pfx tableName (lsRemoveItem m (storageKey pfx tableName key)) m _
    (by
      intro k2 hk2
      rw [List.mem_filter] at hk2
      have hne : k2 ≠ storageKey pfx tableName key := by
        have := hk2.2
        simpa using this
      exact lsRemoveItem_get_ne m _ k2 hne)]
  exact getAllGo_skip_empty P C pfx tableName m _ h _

/-- Witness for C10 at a concrete medium holding an empty-string entry. -/
theorem c10_empty_entry_witness :
    EncryptedStorage.«exists» "@edb" "todos" "e" mWitEmpty = false ∧
    EncryptedStorage.get cipherId codecId "@edb" "todos" "e" mWitEmpty = Except.ok none ∧
    EncryptedStorage.getAll cipherId codecId "@edb" "todos" mWitEmpty =
      EncryptedStorage.getAll cipherId codecId "@edb" "todos"
        (lsRemoveItem mWitEmpty (storageKey "@edb" "todos" "e")) :=
  c10_empty_entry cipherId codecId "@edb" "todos" "e" mWitEmpty rfl

/-- If the enumeration loop returns `ok`, every truthy enumerated entry
decrypted and parsed successfully. -/
theorem getAllGo_ok_sound (P : WebCrypto) {V : Type} (C : JsonCodec V)
    (pfx tableName : String) (m : List (String × String)) :
    ∀ (keys : List String) (rs : List (V × String)),
      EncryptedStorage.getAllGo P C pfx tableName m keys = Except.ok rs →
      ∀ key ∈ keys, ∀ item, lsGetItem m key = some item → item ≠ "" →
        ∃ s, AESGCMEncryptionService.decrypt P item = some s ∧ C.parse s ≠ none := by
  intro keys
  induction keys with
  | nil =>
    intro rs _ key hkey
    simp at hkey
  | cons k0 keys ih =>
    intro rs h key hkey item hit hne
    simp only [EncryptedStorage.getAllGo] at h
    cases h0 : lsGetItem m k0 with
    | none =>
      simp only [h0] at h
      rcases List.mem_cons.mp hkey with rfl | hmem2
      · rw [h0] at hit
        cases hit
      · exact ih rs h key hmem2 item hit hne
    | some it0 =>
      simp only [h0] at h
      by_cases h00 : it0 = ""
      · rw [if_pos h00] at h
        rcases List.mem_cons.mp hkey with rfl | hmem2
        · rw [h0] at hit
          have hii := Option.some.inj hit
          rw [← hii] at hne
          exact absurd h00 hne
        · exact ih rs h key hmem2 item hit hne
      · rw [if_neg h00] at h
        cases hd0 : AESGCMEncryptionService.decrypt P it0 with
        | none =>
          simp only [hd0] at h
          exact Except.noConfusion h
        | some s0 =>
          simp only [hd0] at h
          cases hp0 : C.parse s0 with
          | none =>
            simp only [hp0] at h
            exact Except.noConfusion h
          | some v0 =>
            simp only [hp0] at h
            cases hrest : EncryptedStorage.getAllGo P C pfx tableName m keys with
            | error e =>
              simp only [hrest] at h
              exact Except.noConfusion h
            | ok rs2 =>
              simp only [hrest] at h
              rcases List.mem_cons.mp hkey with rfl | hmem2
              · rw [h0] at hit
                have hii := Option.some.inj hit
                rw [← hii]
                exact ⟨s0, hd0, by simp [hp0]⟩
              · exact ih rs2 hrest key hmem2 item hit hne

/-- A truthy undecryptable entry among the enumerated keys forces the loop
into `DecryptionError`, unless some entry fails JSON-parsing first. -/
theorem getAllGo_error_of_bad (P : WebCrypto) {V : Type} (C : JsonCodec V)
    (pfx tableName : String) (m : List (String × String)) :
    ∀ (keys : List String) (key item : String), key ∈ keys →
      lsGetItem m key = some item → item ≠ "" →
      AESGCMEncryptionService.decrypt P item = none →
      EncryptedStorage.getAllGo P C pfx tableName m keys =
          Except.error StorageErr.decryptionError ∨
        ∃ k2 it2 s2, k2 ∈ keys ∧ lsGetItem m k2 = some it2 ∧ it2 ≠ "" ∧
          AESGCMEncryptionService.decrypt P it2 = some s2 ∧ C.parse s2 = none := by
  intro keys
  induction keys with
  | nil =>
    intro key item hmem
    simp at hmem
  | cons k0 keys ih =>
    intro key item hmem hit hne hdec
    rcases List.mem_cons.mp hmem with rfl | hmem2
    · left
      simp only [EncryptedStorage.getAllGo, hit, if_neg hne, hdec]
    · cases h0 : lsGetItem m k0 with
      | none =>
        rcases ih key item hmem2 hit hne hdec with he | ⟨k2, it2, s2, hk2, hrest⟩
        · left
          simp only [EncryptedStorage.getAllGo, h0, he]
        · exact Or.inr ⟨k2, it2, s2, by simp [hk2], hrest⟩
      | some it0 =>
        by_cases h00 : it0 = ""
        · rcases ih key item hmem2 hit hne hdec with he | ⟨k2, it2, s2, hk2, hrest⟩
          · left
            simp only [EncryptedStorage.getAllGo, h0, if_pos h00, he]
          · exact Or.inr ⟨k2, it2, s2, by simp [hk2], hrest⟩
        · cases hd0 : AESGCMEncryptionService.decrypt P it0 with
          | none =>
            left
            simp only [EncryptedStorage.getAllGo, h0, if_neg h00, hd0]
          | some s0 =>
            cases hp0 : C.parse s0 with
            | none =>
              exact Or.inr ⟨k0, it0, s0, by simp, h0, h00, hd0, hp0⟩
            | some v0 =>
              rcases ih key item hmem2 hit hne hdec with he | ⟨k2, it2, s2, hk2, hrest⟩
              · left
                simp only [EncryptedStorage.getAllGo, h0, if_neg h00, hd0, hp0, he]
              · exact Or.inr ⟨k2, it2, s2, by simp [hk2], hrest⟩

/-- C6: if `getAll(T)` (and hence `filter(T, p)`) encounters one truthy
undecryptable record, the whole call fails with an error — no partial results,
no skipping — and, whenever no record fails JSON-parsing after decryption, the
error is precisely the decryption error. -/
theorem c6_getall_aborts (P : WebCrypto) {V : Type} (C : JsonCodec V)
    (pfx tableName : String) (m : List (String × String)) (key item : String)
    (hmem : key ∈ (lsKeys m).filter
      (fun k2 => jsStartsWith k2 (pfx ++ "_" ++ tableName ++ "_")))
    (hit : lsGetItem m key = some item) (hne : item ≠ "")
    (hdec : AESGCMEncryptionService.decrypt P item = none) :
    (∃ e, EncryptedStorage.getAll P C pfx tableName m = Except.error e) ∧
    (∀ predicate, ∃ e,
      EncryptedStorage.filter P C pfx tableName predicate m = Except.error e) ∧
    ((∀ k2 it2 s2, lsGetItem m k2 = some it2 →
        AESGCMEncryptionService.decrypt P it2 = some s2 → C.parse s2 ≠ none) →
      EncryptedStorage.getAll P C pfx tableName m =
        Except.error StorageErr.decryptionError) := by
  have habort : ∃ e, EncryptedStorage.getAll P C pfx tableName m = Except.error e := by
    cases hres : EncryptedStorage.getAll P C pfx tableName m with
    | error e => exact ⟨e, rfl⟩
    | ok rs =>
      exfalso
      obtain ⟨s, hds, _⟩ := getAllGo_ok_sound P C pfx tableName m _ rs hres key hmem
        item hit hne
      rw [hdec] at hds
      cases hds
  obtain ⟨e, he⟩ := habort
  refine ⟨⟨e, he⟩, ?_, ?_⟩
  · intro predicate
    exact ⟨e, by simp only [EncryptedStorage.filter, he]⟩
  · intro hnoparse
    rcases getAllGo_error_of_bad P C pfx tableName m _ key item hmem hit hne hdec with
      hgood | ⟨k2, it2, s2, _, hit2, _, hd2, hp2⟩
    · exact hgood
    · exact absurd hp2 (hnoparse k2 it2 s2 hit2 hd2)

/-- Witness for C6 at a concrete medium with one undecryptable record. -/
theorem c6_getall_aborts_witness :
    (∃ e, EncryptedStorage.getAll cipherId codecId "@edb" "todos" mWitC6 =
      Except.error e) ∧
    (∀ predicate, ∃ e,
      EncryptedStorage.filter cipherId codecId "@edb" "todos" predicate mWitC6 =
        Except.error e) ∧
    ((∀ k2 it2 s2, lsGetItem mWitC6 k2 = some it2 →
        AESGCMEncryptionService.decrypt cipherId it2 = some s2 →
        codecId.parse s2 ≠ none) →
      EncryptedStorage.getAll cipherId codecId "@edb" "todos" mWitC6 =
        Except.error StorageErr.decryptionError) :=
  c6_getall_aborts cipherId codecId "@edb" "todos" mWitC6 "@edb_todos_bad" "junk"
    (by decide) rfl (by decide) rfl

theorem lsKeys_setItem (m : List (String × String)) (k v : String) :
    lsKeys (lsSetItem m k v) = lsKeys m ∨ lsKeys (lsSetItem m k v) = lsKeys m ++ [k] := by
  by_cases hany : m.any (fun p => p.1 == k) = true
  · left
    simp only [lsSetItem, hany, if_true, lsKeys, List.map_map]
    apply List.map_congr_left
    intro p _
    by_cases hpk : p.1 = k
    · simp [Function.comp, hpk]
    · simp [Function.comp, hpk]
  · right
    rw [Bool.not_eq_true] at hany
    simp [lsSetItem, hany, lsKeys]

/-- A write whose composite key falls outside the `${prefix}_${tableName}_`
namespace leaves `getAll(tableName)` unchanged. -/
theorem getAll_setItem_other (P : WebCrypto) {V : Type} (C : JsonCodec V)
    (pfx tableName : String) (m : List (String × String)) (wkey env : String)
    (hout : jsStartsWith wkey (pfx ++ "_" ++ tableName ++ "_") = false) :
    EncryptedStorage.getAll P C pfx tableName (lsSetItem m wkey env) =
      EncryptedStorage.getAll P C pfx tableName m := by
  unfold EncryptedStorage.getAll
  have hkeys : (lsKeys (lsSetItem m wkey env)).filter
      (fun key => jsStartsWith key (pfx ++ "_" ++ tableName ++ "_")) =
      (lsKeys m).filter (fun key => jsStartsWith key (pfx ++ "_" ++ tableName ++ "_")) := by
    rcases lsKeys_setItem m wkey env with h | h
    · rw [h]
    · rw [h, List.filter_append]
      simp [hout]
  rw [hkeys]
  apply getAllGo_congr
  intro key hkey
  rw [List.mem_filter] at hkey
  apply lsSetItem_get_ne
  intro hcon
  rw [hcon, hout] at hkey
  exact Bool.noConfusion hkey.2

/-- C2 (amended): a record stored under table `A` with record key `k` never
appears in `getAll(B)` for a distinct table `B`, PROVIDED `B ++ "_"` is not a
prefix of `A ++ "_" ++ k`.  The unrestricted claim is false: the underscore
join is not reversible when table names themselves contain underscores (see
the counterexample), so `getAll` can only be guaranteed unchanged under this
side condition. -/
theorem c2_namespace_isolation (P : WebCrypto) {V : Type} (C : JsonCodec V)
    (pfx : String) (fuel : Nat) (A B k : String) (value : V) (st : StoreState)
    (r : V × String) (st2 : StoreState) (_hAB : A ≠ B) (hk : k ≠ "")
    (hnp : jsStartsWith (A ++ "_" ++ k) (B ++ "_") = false)
    (h : EncryptedStorage.set P C pfx fuel A value (some k) st = some (r, st2)) :
    EncryptedStorage.getAll P C pfx B st2.medium =
      EncryptedStorage.getAll P C pfx B st.medium := by
  obtain ⟨_, hmed, _, _, _, _, hkey, _, _⟩ :=
    set_spec P C pfx fuel A value (some k) st r st2 h
  obtain ⟨hr2, _⟩ := hkey k rfl hk
  rw [hmed, hr2]
  apply getAll_setItem_other
  rw [Bool.eq_false_iff]
  intro hcon
  rw [Bool.eq_false_iff] at hnp
  apply hnp
  unfold jsStartsWith at hcon ⊢
  rw [List.isPrefixOf_iff_prefix] at hcon ⊢
  have hdata1 : (storageKey pfx A k).toList =
      (pfx.toList ++ '_' :: []) ++ (A.toList ++ '_' :: k.toList) := by
    show (storageKey pfx A k).data = _
    simp [storageKey, String.data_append]
  have hdata2 : (pfx ++ "_" ++ B ++ "_").toList =
      (pfx.toList ++ '_' :: []) ++ (B.toList ++ '_' :: []) := by
    show (pfx ++ "_" ++ B ++ "_").data = _
    simp [String.data_append]
  rw [hdata1, hdata2] at hcon
  have hred := (List.prefix_append_right_inj (pfx.toList ++ '_' :: [])).mp hcon
  have hgoal1 : (B ++ "_").toList = B.toList ++ '_' :: [] := by
    show (B ++ "_").data = _
    simp [String.data_append]
  have hgoal2 : (A ++ "_" ++ k).toList = A.toList ++ '_' :: k.toList := by
    show (A ++ "_" ++ k).data = _
    simp [String.data_append]
  rw [hgoal1, hgoal2]
  exact hred

/-- Counterexample to C2 as stated: tables `"a"` and `"a_b"` are distinct, yet
the composite key of (`"a"`, `"b_c"`) coincides with that of (`"a_b"`, `"c"`),
and after storing under table `"a"` the record shows up in `getAll("a_b")`
with record key `"c"`. -/
theorem c2_namespace_isolation_counterexample :
    ("a" : String) ≠ "a_b" ∧
    storageKey "@edb" "a" "b_c" = storageKey "@edb" "a_b" "c" ∧
    EncryptedStorage.getAll cipherId codecId "@edb" "a_b"
      ((setResC2.getD dfltRes).2.medium) = Except.ok [("hello", "c")] := by
  refine ⟨by decide, rfl, ?_⟩
  rfl

/-- Witness for the amended C2 at a concrete run. -/
theorem c2_namespace_isolation_witness :
    EncryptedStorage.getAll cipherId codecId "@edb" "b"
      ((setResC2.getD dfltRes).2.medium) =
    EncryptedStorage.getAll cipherId codecId "@edb" "b" stWit.medium :=
  c2_namespace_isolation cipherId codecId "@edb" 1 "a" "b" "b_c" "hello" stWit
    ((setResC2.getD dfltRes).1) ((setResC2.getD dfltRes).2)
    (by decide) (by decide) (by decide) rfl

/-! ### Freshness and preservation along sequences of omitted-key writes -/

theorem exists_false_no_truthy (pfx tableName k : String) (m : List (String × String))
    (s : String) (hex : EncryptedStorage.«exists» pfx tableName k m = false)
    (hm : lsGetItem m (storageKey pfx tableName k) = some s) : s = "" := by
  simp only [EncryptedStorage.«exists», hm] at hex
  simpa using hex

theorem exists_true_elim (pfx tableName k : String) (m : List (String × String))
    (h : EncryptedStorage.«exists» pfx tableName k m = true) :
    ∃ s, lsGetItem m (storageKey pfx tableName k) = some s ∧ s ≠ "" := by
  unfold EncryptedStorage.«exists» at h
  cases hm : lsGetItem m (storageKey pfx tableName k) with
  | none =>
    rw [hm] at h
    cases h
  | some s =>
    rw [hm] at h
    refine ⟨s, rfl, ?_⟩
    simpa using h

theorem set_none_preserves (P : WebCrypto) {V : Type} (C : JsonCodec V) (pfx : String)
    (fuel : Nat) (tableName : String) (v : V) (st : StoreState) (r : V × String)
    (st2 : StoreState) (key0 s0 : String)
    (h : EncryptedStorage.set P C pfx fuel tableName v none st = some (r, st2))
    (hm : lsGetItem st.medium key0 = some s0) (hs : s0 ≠ "") :
    lsGetItem st2.medium key0 = some s0 := by
  obtain ⟨_, hmed, _, _, _, _, _, _, hexf⟩ :=
    set_spec P C pfx fuel tableName v none st r st2 h
  have hex := hexf rfl
  rw [hmed]
  by_cases hk : key0 = storageKey pfx tableName r.2
  · exfalso
    rw [hk] at hm
    exact hs (exists_false_no_truthy pfx tableName r.2 st.medium s0 hex hm)
  · rw [lsSetItem_get_ne _ _ _ _ hk]
    exact hm

theorem setSeq_nil_inv (P : WebCrypto) {V : Type} (C : JsonCodec V) (pfx : String)
    (fuel : Nat) (tableName : String) {st : StoreState} {rs : List (V × String)}
    {st2 : StoreState}
    (h : EncryptedStorage.setSeq P C pfx fuel tableName [] st = some (rs, st2)) :
    rs = [] ∧ st2 = st := by
  have h' := Option.some.inj h
  have h1 : ([] : List (V × String)) = rs := congrArg Prod.fst h'
  have h2 : st = st2 := congrArg Prod.snd h'
  exact ⟨h1.symm, h2.symm⟩

theorem setSeq_cons_inv (P : WebCrypto) {V : Type} (C : JsonCodec V) (pfx : String)
    (fuel : Nat) (tableName : String) {v : V} {vs : List V} {st : StoreState}
    {rs : List (V × String)} {st2 : StoreState}
    (h : EncryptedStorage.setSeq P C pfx fuel tableName (v :: vs) st = some (rs, st2)) :
    ∃ r1 st1 rs2,
      EncryptedStorage.set P C pfx fuel tableName v none st = some (r1, st1) ∧
      EncryptedStorage.setSeq P C pfx fuel tableName vs st1 = some (rs2, st2) ∧
      rs = r1 :: rs2 := by
  simp only [EncryptedStorage.setSeq] at h
  cases h1 : EncryptedStorage.set P C pfx fuel tableName v none st with
  | none =>
    simp only [h1] at h
    exact Option.noConfusion h
  | some r1st =>
    simp only [h1] at h
    cases h2 : EncryptedStorage.setSeq P C pfx fuel tableName vs r1st.2 with
    | none =>
      simp only [h2] at h
      exact Option.noConfusion h
    | some rsst =>
      simp only [h2] at h
      have h' := Option.some.inj h
      have hrs : r1st.1 :: rsst.1 = rs := congrArg Prod.fst h'
      have hst : rsst.2 = st2 := congrArg Prod.snd h'
      refine ⟨r1st.1, r1st.2, rsst.1, ?_, ?_, hrs.symm⟩
      · rw [Prod.mk.eta]
      · rw [← hst, Prod.mk.eta]
        exact h2

theorem setSeq_preserves (P : WebCrypto) {V : Type} (C : JsonCodec V) (pfx : String)
    (fuel : Nat) (tableName : String) :
    ∀ (vs : List V) (st : StoreState) (rs : List (V × String)) (st2 : StoreState)
      (key0 s0 : String),
      EncryptedStorage.setSeq P C pfx fuel tableName vs st = some (rs, st2) →
      lsGetItem st.medium key0 = some s0 → s0 ≠ "" →
      lsGetItem st2.medium key0 = some s0 := by
  intro vs
  induction vs with
  | nil =>
    intro st rs st2 key0 s0 h hm _
    obtain ⟨_, rfl⟩ := setSeq_nil_inv P C pfx fuel tableName h
    exact hm
  | cons v vs ih =>
    intro st rs st2 key0 s0 h hm hs
    obtain ⟨r1, st1, rs2, h1, h2, rfl⟩ := setSeq_cons_inv P C pfx fuel tableName h
    exact ih st1 rs2 st2 key0 s0 h2
      (set_none_preserves P C pfx fuel tableName v st r1 st1 key0 s0 h1 hm hs) hs

theorem setSeq_keys_fresh (P : WebCrypto) {V : Type} (C : JsonCodec V) (pfx : String)
    (fuel : Nat) (tableName : String) :
    ∀ (vs : List V) (st : StoreState) (rs : List (V × String)) (st2 : StoreState),
      EncryptedStorage.setSeq P C pfx fuel tableName vs st = some (rs, st2) →
      ∀ p ∈ rs, EncryptedStorage.«exists» pfx tableName p.2 st.medium = false := by
  intro vs
  induction vs with
  | nil =>
    intro st rs st2 h p hp
    obtain ⟨rfl, _⟩ := setSeq_nil_inv P C pfx fuel tableName h
    simp at hp
  | cons v vs ih =>
    intro st rs st2 h p hp
    obtain ⟨r1, st1, rs2, h1, h2, rfl⟩ := setSeq_cons_inv P C pfx fuel tableName h
    rcases List.mem_cons.mp hp with rfl | hp2
    · obtain ⟨_, _, _, _, _, _, _, _, hexf⟩ :=
        set_spec P C pfx fuel tableName v none st p st1 h1
      exact hexf rfl
    · have hlater := ih st1 rs2 st2 h2 p hp2
      rw [Bool.eq_false_iff]
      intro hcon
      obtain ⟨s, hsm, hsne⟩ := exists_true_elim pfx tableName p.2 st.medium hcon
      have hpres := set_none_preserves P C pfx fuel tableName v st r1 st1
        (storageKey pfx tableName p.2) s h1 hsm hsne
      have htrue := exists_of_entry pfx tableName p.2 st1.medium s hsne hpres
      rw [hlater] at htrue
      exact Bool.noConfusion htrue

/-- Sequential omitted-key `set` calls assign pairwise distinct keys, each of
which retrieves its own value from the final medium. -/
theorem setSeq_spec (P : WebCrypto) {V : Type} (C : JsonCodec V) (pfx : String)
    (fuel : Nat) (tableName : String) :
    ∀ (vs : List V) (st : StoreState) (rs : List (V × String)) (st2 : StoreState),
      WFRand st →
      EncryptedStorage.setSeq P C pfx fuel tableName vs st = some (rs, st2) →
      (rs.map Prod.snd).Nodup ∧
      ∀ p ∈ rs, EncryptedStorage.get P C pfx tableName p.2 st2.medium =
        Except.ok (some p.1) := by
  intro vs
  induction vs with
  | nil =>
    intro st rs st2 _ h
    obtain ⟨rfl, _⟩ := setSeq_nil_inv P C pfx fuel tableName h
    exact ⟨List.nodup_nil, by simp⟩
  | cons v vs ih =>
    intro st rs st2 hrand h
    obtain ⟨r1, st1, rs2, h1, h2, rfl⟩ := setSeq_cons_inv P C pfx fuel tableName h
    obtain ⟨hv1, hmed1, hrb1, _, _, _, _, _, _⟩ :=
      set_spec P C pfx fuel tableName v none st r1 st1 h1
    have hrand1 : WFRand st1 := wfRand_transfer hrb1 hrand
    obtain ⟨hnd, hget⟩ := ih st1 rs2 st2 hrand1 h2
    have hentry1 : lsGetItem st1.medium (storageKey pfx tableName r1.2) =
        some (envOf P C st v) := by
      rw [hmed1]
      exact lsSetItem_get_self _ _ _
    constructor
    · simp only [List.map_cons, List.nodup_cons]
      refine ⟨?_, hnd⟩
      intro hcon
      rw [List.mem_map] at hcon
      obtain ⟨p, hp, hpk⟩ := hcon
      have hfresh := setSeq_keys_fresh P C pfx fuel tableName vs st1 rs2 st2 h2 p hp
      rw [hpk] at hfresh
      have htrue := exists_of_entry pfx tableName r1.2 st1.medium
        (envOf P C st v) (stringifyEnvelope_ne_empty _ _) hentry1
      rw [hfresh] at htrue
      exact Bool.noConfusion htrue
    · intro p hp
      rcases List.mem_cons.mp hp with rfl | hp2
      · have hpres := setSeq_preserves P C pfx fuel tableName vs st1 rs2 st2
          (storageKey pfx tableName p.2) (envOf P C st v) h2 hentry1
          (stringifyEnvelope_ne_empty _ _)
        rw [show p.1 = v from hv1]
        exact get_of_entry P C pfx tableName p.2 st2.medium (envOf P C st v) v
          (decrypt_envOf P C st v hrand) (stringifyEnvelope_ne_empty _ _) hpres
      · exact hget p hp2

/-- C3: with the key omitted, `set` draws a random UUID; it retries with a new
draw if and only if the drawn key's composite entry is truthy (collision), and
the retry path is unreachable for explicit non-empty keys (which consume no
UUID draw at all); consequently a sequence of N omitted-key `set` calls yields
N pairwise-distinct keys, each independently retrievable. -/
theorem c3_omitted_key_unique (P : WebCrypto) {V : Type} (C : JsonCodec V)
    (pfx : String) (fuel : Nat) (tableName : String) (st : StoreState) :
    (∀ (v : V) (k : String), k ≠ "" → ∃ st2,
      EncryptedStorage.set P C pfx (fuel + 1) tableName v (some k) st =
        some ((v, k), st2) ∧ st2.uuidIdx = st.uuidIdx) ∧
    (∀ v : V,
      EncryptedStorage.«exists» pfx tableName (st.uuids st.uuidIdx) st.medium = false →
      ∃ st2, EncryptedStorage.set P C pfx (fuel + 1) tableName v none st =
        some ((v, st.uuids st.uuidIdx), st2) ∧ st2.uuidIdx = st.uuidIdx + 1) ∧
    (∀ v : V,
      EncryptedStorage.«exists» pfx tableName (st.uuids st.uuidIdx) st.medium = true →
      EncryptedStorage.set P C pfx (fuel + 1) tableName v none st =
        EncryptedStorage.set P C pfx fuel tableName v none (bumpUuid st)) ∧
    (∀ (vs : List V) (rs : List (V × String)) (st2 : StoreState), WFRand st →
      EncryptedStorage.setSeq P C pfx (fuel + 1) tableName vs st = some (rs, st2) →
      (rs.map Prod.snd).Nodup ∧
      ∀ p ∈ rs, EncryptedStorage.get P C pfx tableName p.2 st2.medium =
        Except.ok (some p.1)) := by
  refine ⟨?_, ?_, ?_, ?_⟩
  · intro v k hk
    exact ⟨_, set_explicit P C pfx fuel tableName v k st hk, rfl⟩
  · intro v hex
    exact ⟨_, set_none_fresh P C pfx fuel tableName v st hex, rfl⟩
  · intro v hex
    exact set_none_collision P C pfx fuel tableName v st hex
  · intro vs rs st2 hrand h
    exact setSeq_spec P C pfx (fuel + 1) tableName vs st rs st2 hrand h

/-- Witness for C3 at a concrete two-element run. -/
theorem c3_omitted_key_unique_witness :
    (((setSeqRes.getD dfltSeq).1.map Prod.snd).Nodup ∧
      ∀ p ∈ (setSeqRes.getD dfltSeq).1,
        EncryptedStorage.get cipherId codecId "@edb" "todos" p.2
          ((setSeqRes.getD dfltSeq).2.medium) = Except.ok (some p.1)) :=
  (c3_omitted_key_unique cipherId codecId "@edb" 0 "todos" stWit).2.2.2 ["x", "y"]
    ((setSeqRes.getD dfltSeq).1) ((setSeqRes.getD dfltSeq).2) stWit_wfRand rfl
